import Mathlib

/-!
Shallow embedding of the `BattleCard` Solidity contract (ERC721 card game):
state, minting with pseudo-random stats, the `battle` view comparison, the
`upgrade` (fusion) operation, and `getCard`, together with proofs of the
specification claims about them.

Modelling conventions:
* `uint256` values are `Nat` with explicit bound checks where Solidity 0.8's
  checked arithmetic could revert; `uint8` casts are `% 256`.
* Addresses are `Nat`; `0` is the zero address.  The ERC721 `_owners` mapping
  is `Nat → Option Address` with `none` for the zero address (token absent).
* `keccak256 ∘ abi.encodePacked` is an abstract parameter
  `keccak : List Nat → Nat`; the contract only uses it through `derive`,
  which truncates to a `uint256`.
* A reverting call is `Except.error`: the transaction aborts and the caller
  observes the pre-state (the `run*` wrappers make that rollback explicit).
-/

namespace BattleCard

abbrev Address := Nat

/-- The `Card` struct: `power`, `defense`, `speed` are `uint256`,
`rarity` is `uint8`. -/
structure Card where
  power : Nat
  defense : Nat
  speed : Nat
  rarity : Nat
  deriving Repr, DecidableEq

/-- The Solidity mapping default value for `Card`. -/
def zeroCard : Card := ⟨0, 0, 0, 0⟩

/-- Contract storage: the `nextId` counter, the `cards` mapping (total, with
`zeroCard` default, as a Solidity mapping), and the ERC721 `_owners` mapping. -/
structure BCState where
  nextId : Nat
  cards : Nat → Card
  owners : Nat → Option Address

/-- State right after the constructor: `nextId = 1`, both mappings empty. -/
def initialState : BCState :=
  { nextId := 1, cards := fun _ => zeroCard, owners := fun _ => none }

/-- Pointwise update of a mapping. -/
def mupdate {α : Type} (f : Nat → α) (k : Nat) (v : α) : Nat → α :=
  fun i => if i = k then v else f i

/-- Revert reasons of the contract and of the OpenZeppelin ERC721 calls it
makes. -/
inductive Err where
  | notOwner
  | nonexistentToken
  | invalidSender
  | invalidReceiver
  | invalidCard
  | overflow
  deriving Repr, DecidableEq

/-- `ownerOf(tokenId)`: reverts (`ERC721NonexistentToken`) when the token has
no owner, otherwise returns the owner. -/
def ownerOf (s : BCState) (tokenId : Nat) : Except Err Address :=
  match s.owners tokenId with
  | some o => .ok o
  | none => .error .nonexistentToken

/-- `_safeMint(to, tokenId)` (recipients modelled as externally owned
accounts): reverts on the zero address or an already-minted token, otherwise
records `to` as owner. -/
def safeMint (rcpt : Address) (tokenId : Nat) (s : BCState) : Except Err BCState :=
  if rcpt = 0 then .error .invalidReceiver
  else
    match s.owners tokenId with
    | some _ => .error .invalidSender
    | none => .ok { s with owners := mupdate s.owners tokenId (some rcpt) }

/-- `_burn(tokenId)`: reverts when the token has no owner, otherwise clears
the owner.  It does NOT touch the `cards` mapping. -/
def burn (tokenId : Nat) (s : BCState) : Except Err BCState :=
  match s.owners tokenId with
  | none => .error .nonexistentToken
  | some _ => .ok { s with owners := mupdate s.owners tokenId none }

/-- `uint256(keccak256(abi.encodePacked(parts)))`: the random attribute
derivation, an abstract hash truncated to a 256-bit unsigned integer.  A pure
total function of the seed parts. -/
def derive (keccak : List Nat → Nat) (parts : List Nat) : Nat :=
  keccak parts % 2 ^ 256

/-- The `Card` struct literal built in `mintCard` from the random draw. -/
def genCard (rand : Nat) : Card :=
  { power := rand % 50 + 50
    defense := rand % 40 + 30
    speed := rand % 20 + 10
    rarity := (rand % 5 + 1) % 256 }

/-- `mintCard()`: `tokenId = nextId++`, `_safeMint(msg.sender, tokenId)`,
draw `rand = keccak(timestamp, sender, tokenId)`, store the generated card.
Returns the allocated token id alongside the post-state. -/
def mintCard (keccak : List Nat → Nat) (time : Nat) (caller : Address)
    (s : BCState) : Except Err (BCState × Nat) :=
  let tokenId := s.nextId
  let s1 : BCState := { s with nextId := s.nextId + 1 }
  match safeMint caller tokenId s1 with
  | .error e => .error e
  | .ok s2 =>
      let rand := derive keccak [time, caller, tokenId]
      .ok ({ s2 with cards := mupdate s2.cards tokenId (genCard rand) }, tokenId)

/-- `getCard(tokenId)`: a total view returning the `cards` mapping entry
(the `zeroCard` default when nothing was stored). -/
def getCard (s : BCState) (tokenId : Nat) : Card :=
  s.cards tokenId

/-- `battle(card1, card2)`: a `view` function.  Reads both card structs,
requires both tokens to have a nonzero owner (short-circuit `&&`, each
`ownerOf` itself reverting on a nonexistent token), computes
`score = power + defense / 2 + speed` for each side, draws
`rand = keccak(timestamp, sender) % 10`, adds `rand` to side 1 and
`10 - rand` to side 2, and returns the result string.  Checked `uint256`
addition is modelled by the explicit overflow guards.  The state is returned
unchanged. -/
def battle (keccak : List Nat → Nat) (time : Nat) (caller : Address)
    (card1 card2 : Nat) (s : BCState) : Except Err (String × BCState) :=
  let c1 := s.cards card1
  let c2 := s.cards card2
  match ownerOf s card1 with
  | .error e => .error e
  | .ok o1 =>
      if o1 = 0 then .error .invalidCard
      else
        match ownerOf s card2 with
        | .error e => .error e
        | .ok o2 =>
            if o2 = 0 then .error .invalidCard
            else
              let score1 := c1.power + c1.defense / 2 + c1.speed
              let score2 := c2.power + c2.defense / 2 + c2.speed
              let rand := derive keccak [time, caller] % 10
              if 2 ^ 256 ≤ score1 + rand then .error .overflow
              else if 2 ^ 256 ≤ score2 + (10 - rand) then .error .overflow
              else
                let t1 := score1 + rand
                let t2 := score2 + (10 - rand)
                if t1 > t2 then .ok ("Card 1 Wins!", s)
                else if t2 > t1 then .ok ("Card 2 Wins!", s)
                else .ok ("Draw!", s)

/-- The `Card` struct literal built in `upgrade` (checked `uint256` and
`uint8` arithmetic cannot wrap, so sums appear plainly; the guards live in
`upgrade`). -/
def fuseCard (c1 c2 : Card) : Card :=
  { power := (c1.power + c2.power) / 2 + 10
    defense := (c1.defense + c2.defense) / 2 + 5
    speed := (c1.speed + c2.speed) / 2 + 5
    rarity := (c1.rarity + c2.rarity) / 2 + 1 }

/-- `upgrade(id1, id2)`: requires
`ownerOf(id1) == msg.sender && ownerOf(id2) == msg.sender` (short-circuit:
`ownerOf(id2)` is only evaluated when the first conjunct holds), burns both
tokens, allocates `newId = nextId++`, `_safeMint`s it to the caller, then
reads `cards[id1]` and `cards[id2]` — which `_burn` left intact — and stores
the fused card.  The overflow guard models Solidity 0.8 checked addition
(`power`, `defense`, `speed` are `uint256`; `rarity` is `uint8`). -/
def upgrade (caller : Address) (id1 id2 : Nat) (s : BCState) :
    Except Err (BCState × Nat) :=
  match ownerOf s id1 with
  | .error e => .error e
  | .ok o1 =>
      if o1 = caller then
        match ownerOf s id2 with
        | .error e => .error e
        | .ok o2 =>
            if o2 = caller then
              match burn id1 s with
              | .error e => .error e
              | .ok s1 =>
                  match burn id2 s1 with
                  | .error e => .error e
                  | .ok s2 =>
                      let newId := s2.nextId
                      let s3 : BCState := { s2 with nextId := s2.nextId + 1 }
                      match safeMint caller newId s3 with
                      | .error e => .error e
                      | .ok s4 =>
                          let c1 := s4.cards id1
                          let c2 := s4.cards id2
                          if 2 ^ 256 ≤ c1.power + c2.power ∨
                             2 ^ 256 ≤ c1.defense + c2.defense ∨
                             2 ^ 256 ≤ c1.speed + c2.speed ∨
                             256 ≤ c1.rarity + c2.rarity then
                            .error .overflow
                          else
                            .ok ({ s4 with
                                    cards := mupdate s4.cards newId
                                      (fuseCard c1 c2) }, newId)
            else .error .notOwner
      else .error .notOwner

/-- Transaction-level view of `upgrade`: a revert rolls the state back to the
pre-state and allocates no id. -/
def runUpgrade (caller : Address) (id1 id2 : Nat) (s : BCState) :
    BCState × Option Nat :=
  match upgrade caller id1 id2 s with
  | .ok (s', i) => (s', some i)
  | .error _ => (s, none)

/-- Transaction-level view of `battle`: a revert rolls the state back; a
success returns the result string and the post-state. -/
def runBattle (keccak : List Nat → Nat) (time : Nat) (caller : Address)
    (card1 card2 : Nat) (s : BCState) : BCState × Option String :=
  match battle keccak time caller card1 card2 s with
  | .ok (m, s') => (s', some m)
  | .error _ => (s, none)

/-! ## Inversion lemmas for the primitive operations -/

theorem ownerOf_ok_inv {s : BCState} {id : Nat} {a : Address}
    (h : ownerOf s id = .ok a) : s.owners id = some a := by
  unfold ownerOf at h
  cases hh : s.owners id <;> rw [hh] at h <;> simp_all

theorem ownerOf_eq_of_some {s : BCState} {id : Nat} {a : Address}
    (h : s.owners id = some a) : ownerOf s id = .ok a := by
  unfold ownerOf
  rw [h]

theorem burn_ok_inv {id : Nat} {s s' : BCState}
    (h : burn id s = .ok s') :
    (∃ a, s.owners id = some a) ∧
      s' = { s with owners := mupdate s.owners id none } := by
  unfold burn at h
  cases hh : s.owners id <;> rw [hh] at h <;> simp_all

theorem burn_eq_of_some {id : Nat} {s : BCState} {a : Address}
    (h : s.owners id = some a) :
    burn id s = .ok { s with owners := mupdate s.owners id none } := by
  unfold burn
  rw [h]

theorem safeMint_ok_inv {rcpt : Address} {id : Nat} {s s' : BCState}
    (h : safeMint rcpt id s = .ok s') :
    rcpt ≠ 0 ∧ s.owners id = none ∧
      s' = { s with owners := mupdate s.owners id (some rcpt) } := by
  unfold safeMint at h
  split at h
  · simp_all
  · cases hh : s.owners id <;> rw [hh] at h <;> simp_all

/-- Inversion for a successful `mintCard`: the allocated id is the old
`nextId`, the counter advances by one, and the post-state stores the
generated card and the new ownership. -/
theorem mintCard_ok {keccak : List Nat → Nat} {time : Nat} {caller : Address}
    {s s' : BCState} {i : Nat}
    (h : mintCard keccak time caller s = .ok (s', i)) :
    i = s.nextId ∧ caller ≠ 0 ∧ s.owners s.nextId = none ∧
      s' = { nextId := s.nextId + 1,
             cards := mupdate s.cards s.nextId
               (genCard (derive keccak [time, caller, s.nextId])),
             owners := mupdate s.owners s.nextId (some caller) } := by
  unfold mintCard at h
  dsimp only at h
  split at h
  · simp_all
  · next s2 heq =>
      obtain ⟨h0, hnone, hs2⟩ := safeMint_ok_inv heq
      obtain ⟨hs', hi⟩ := by simpa using h
      subst hs2
      exact ⟨hi.symm, h0, hnone, hs'.symm⟩

/-- Inversion for a successful `upgrade`: the caller owned both distinct
input tokens, the output id is the old `nextId`, the checked additions were
in range, and the post-state burns the inputs, advances the counter, and
stores the fused card computed from the inputs' (untouched) `cards`
entries. -/
theorem upgrade_ok {caller : Address} {id1 id2 : Nat} {s s' : BCState}
    {nid : Nat}
    (h : upgrade caller id1 id2 s = .ok (s', nid)) :
    s.owners id1 = some caller ∧ s.owners id2 = some caller ∧ id1 ≠ id2 ∧
      caller ≠ 0 ∧ nid = s.nextId ∧
      (s.cards id1).power + (s.cards id2).power < 2 ^ 256 ∧
      (s.cards id1).defense + (s.cards id2).defense < 2 ^ 256 ∧
      (s.cards id1).speed + (s.cards id2).speed < 2 ^ 256 ∧
      (s.cards id1).rarity + (s.cards id2).rarity < 256 ∧
      s' = { nextId := s.nextId + 1,
             cards := mupdate s.cards s.nextId
               (fuseCard (s.cards id1) (s.cards id2)),
             owners := mupdate (mupdate (mupdate s.owners id1 none) id2 none)
               s.nextId (some caller) } := by
  unfold upgrade at h
  dsimp only at h
  split at h
  · simp_all
  · next o1 heq1 =>
      have hown1 : s.owners id1 = some o1 := ownerOf_ok_inv heq1
      split at h
      · next ho1 =>
          subst ho1
          split at h
          · simp_all
          · next o2 heq2 =>
              have hown2 : s.owners id2 = some o2 := ownerOf_ok_inv heq2
              split at h
              · next ho2 =>
                  subst ho2
                  split at h
                  · simp_all
                  · next s1 hb1 =>
                      obtain ⟨-, hs1⟩ := burn_ok_inv hb1
                      split at h
                      · simp_all
                      · next s2 hb2 =>
                          obtain ⟨⟨a, ha⟩, hs2⟩ := burn_ok_inv hb2
                          have hne : id1 ≠ id2 := by
                            intro hcontra
                            subst hcontra
                            rw [hs1] at ha
                            simp [mupdate] at ha
                          subst hs2
                          subst hs1
                          split at h
                          · simp_all
                          · next s4 hm =>
                              obtain ⟨h0, -, hs4⟩ := safeMint_ok_inv hm
                              subst hs4
                              dsimp only at h
                              split at h
                              · simp_all
                              · next hle =>
                                  push_neg at hle
                                  obtain ⟨hp, hd, hsp, hr⟩ := hle
                                  rw [Except.ok.injEq, Prod.mk.injEq] at h
                                  obtain ⟨hs', hi⟩ := h
                                  exact ⟨hown1, hown2, hne, h0, hi.symm,
                                    hp, hd, hsp, hr, hs' ▸ rfl⟩
              · simp_all
      · simp_all

/-! ## Stat bounds and correlation of minted cards -/

theorem genCard_bounds (r : Nat) :
    50 ≤ (genCard r).power ∧ (genCard r).power ≤ 99 ∧
    30 ≤ (genCard r).defense ∧ (genCard r).defense ≤ 69 ∧
    10 ≤ (genCard r).speed ∧ (genCard r).speed ≤ 29 ∧
    1 ≤ (genCard r).rarity ∧ (genCard r).rarity ≤ 5 := by
  unfold genCard
  dsimp only
  have h50 : r % 50 < 50 := Nat.mod_lt _ (by norm_num)
  have h40 : r % 40 < 40 := Nat.mod_lt _ (by norm_num)
  have h20 : r % 20 < 20 := Nat.mod_lt _ (by norm_num)
  have h5 : r % 5 < 5 := Nat.mod_lt _ (by norm_num)
  have h256 : (r % 5 + 1) % 256 = r % 5 + 1 := Nat.mod_eq_of_lt (by omega)
  rw [h256]
  omega

theorem genCard_attrs (r : Nat) :
    (genCard r).power = r % 50 + 50 ∧
    (genCard r).defense = r % 40 + 30 ∧
    (genCard r).speed = r % 20 + 10 ∧
    (genCard r).rarity = r % 5 + 1 ∧
    ((genCard r).power - 50) % 10 = ((genCard r).defense - 30) % 10 ∧
    ((genCard r).defense - 30) % 10 = ((genCard r).speed - 10) % 10 ∧
    (genCard r).rarity = ((genCard r).power - 50) % 5 + 1 := by
  have h5 : r % 5 < 5 := Nat.mod_lt _ (by norm_num)
  have h256 : (r % 5 + 1) % 256 = r % 5 + 1 := Nat.mod_eq_of_lt (by omega)
  unfold genCard
  dsimp only
  rw [h256, Nat.add_sub_cancel, Nat.add_sub_cancel, Nat.add_sub_cancel]
  refine ⟨rfl, rfl, rfl, rfl, ?_, ?_, ?_⟩
  · rw [Nat.mod_mod_of_dvd _ (by norm_num : (10 : Nat) ∣ 50),
      Nat.mod_mod_of_dvd _ (by norm_num : (10 : Nat) ∣ 40)]
  · rw [Nat.mod_mod_of_dvd _ (by norm_num : (10 : Nat) ∣ 40),
      Nat.mod_mod_of_dvd _ (by norm_num : (10 : Nat) ∣ 20)]
  · rw [Nat.mod_mod_of_dvd _ (by norm_num : (5 : Nat) ∣ 50)]

/-- Claim C2: every card created by `mintCard` satisfies
`power ∈ [50,99]`, `defense ∈ [30,69]`, `speed ∈ [10,29]` and
`rarity ∈ [1,5]`, for any value the seed derivation produces. -/
theorem mint_stat_bounds {keccak : List Nat → Nat} {time : Nat}
    {caller : Address} {s s' : BCState} {i : Nat}
    (h : mintCard keccak time caller s = .ok (s', i)) :
    50 ≤ (getCard s' i).power ∧ (getCard s' i).power ≤ 99 ∧
    30 ≤ (getCard s' i).defense ∧ (getCard s' i).defense ≤ 69 ∧
    10 ≤ (getCard s' i).speed ∧ (getCard s' i).speed ≤ 29 ∧
    1 ≤ (getCard s' i).rarity ∧ (getCard s' i).rarity ≤ 5 := by
  obtain ⟨hi, -, -, hs'⟩ := mintCard_ok h
  subst hi
  subst hs'
  have hb := genCard_bounds (derive keccak [time, caller, s.nextId])
  simpa [getCard, mupdate] using hb

/-- A concrete mint from the fresh contract state, used to instantiate the
mint theorems. -/
def mintDemoS : BCState :=
  { nextId := 2,
    cards := mupdate initialState.cards 1
      (genCard (derive (fun _ => 12345) [0, 7, 1])),
    owners := mupdate initialState.owners 1 (some 7) }

theorem mint_stat_bounds_witness :
    50 ≤ (getCard mintDemoS 1).power ∧ (getCard mintDemoS 1).power ≤ 99 ∧
    30 ≤ (getCard mintDemoS 1).defense ∧ (getCard mintDemoS 1).defense ≤ 69 ∧
    10 ≤ (getCard mintDemoS 1).speed ∧ (getCard mintDemoS 1).speed ≤ 29 ∧
    1 ≤ (getCard mintDemoS 1).rarity ∧ (getCard mintDemoS 1).rarity ≤ 5 := by
  have h : mintCard (fun _ => 12345) 0 7 initialState = .ok (mintDemoS, 1) := rfl
  exact mint_stat_bounds h

/-- Claim C10: all four attributes of a minted card are reductions of one
shared random draw `r` — `power = r % 50 + 50`, `defense = r % 40 + 30`,
`speed = r % 20 + 10`, `rarity = r % 5 + 1` — hence `(power - 50)`,
`(defense - 30)` and `(speed - 10)` are pairwise congruent modulo 10 and
`rarity = (power - 50) % 5 + 1`. -/
theorem mint_attributes_correlated {keccak : List Nat → Nat} {time : Nat}
    {caller : Address} {s s' : BCState} {i : Nat}
    (h : mintCard keccak time caller s = .ok (s', i)) :
    ∃ r, r = derive keccak [time, caller, s.nextId] ∧
      (getCard s' i).power = r % 50 + 50 ∧
      (getCard s' i).defense = r % 40 + 30 ∧
      (getCard s' i).speed = r % 20 + 10 ∧
      (getCard s' i).rarity = r % 5 + 1 ∧
      ((getCard s' i).power - 50) % 10 = ((getCard s' i).defense - 30) % 10 ∧
      ((getCard s' i).defense - 30) % 10 = ((getCard s' i).speed - 10) % 10 ∧
      (getCard s' i).rarity = ((getCard s' i).power - 50) % 5 + 1 := by
  obtain ⟨hi, -, -, hs'⟩ := mintCard_ok h
  subst hi
  subst hs'
  refine ⟨derive keccak [time, caller, s.nextId], rfl, ?_⟩
  have hg : getCard
      { nextId := s.nextId + 1,
        cards := mupdate s.cards s.nextId
          (genCard (derive keccak [time, caller, s.nextId])),
        owners := mupdate s.owners s.nextId (some caller) } s.nextId =
      genCard (derive keccak [time, caller, s.nextId]) := by
    simp [getCard, mupdate]
  rw [hg]
  exact genCard_attrs _

theorem mint_attributes_correlated_witness :
    ∃ r, r = derive (fun _ => 12345) [0, 7, 1] ∧
      (getCard mintDemoS 1).power = r % 50 + 50 ∧
      (getCard mintDemoS 1).defense = r % 40 + 30 ∧
      (getCard mintDemoS 1).speed = r % 20 + 10 ∧
      (getCard mintDemoS 1).rarity = r % 5 + 1 ∧
      ((getCard mintDemoS 1).power - 50) % 10 =
        ((getCard mintDemoS 1).defense - 30) % 10 ∧
      ((getCard mintDemoS 1).defense - 30) % 10 =
        ((getCard mintDemoS 1).speed - 10) % 10 ∧
      (getCard mintDemoS 1).rarity = ((getCard mintDemoS 1).power - 50) % 5 + 1 := by
  have h : mintCard (fun _ => 12345) 0 7 initialState = .ok (mintDemoS, 1) := rfl
  exact mint_attributes_correlated h

/-! ## Fusion arithmetic -/

/-- Claim C3: on a successful fusion, the new card's stats are the truncated
averages plus the fixed bonuses; in particular the inputs (60,40,20,2) and
(80,50,25,4) fuse to power 80, defense 50, speed 27, rarity 4. -/
theorem upgrade_stats {caller : Address} {id1 id2 : Nat} {s s' : BCState}
    {nid : Nat}
    (h : upgrade caller id1 id2 s = .ok (s', nid)) :
    (getCard s' nid).power =
      ((s.cards id1).power + (s.cards id2).power) / 2 + 10 ∧
    (getCard s' nid).defense =
      ((s.cards id1).defense + (s.cards id2).defense) / 2 + 5 ∧
    (getCard s' nid).speed =
      ((s.cards id1).speed + (s.cards id2).speed) / 2 + 5 ∧
    (s.cards id1 = ⟨60, 40, 20, 2⟩ → s.cards id2 = ⟨80, 50, 25, 4⟩ →
      getCard s' nid = ⟨80, 50, 27, 4⟩) := by
  obtain ⟨-, -, -, -, hnid, -, -, -, -, hs'⟩ := upgrade_ok h
  subst hnid
  subst hs'
  have hg : getCard
      { nextId := s.nextId + 1,
        cards := mupdate s.cards s.nextId (fuseCard (s.cards id1) (s.cards id2)),
        owners := mupdate (mupdate (mupdate s.owners id1 none) id2 none)
          s.nextId (some caller) } s.nextId =
      fuseCard (s.cards id1) (s.cards id2) := by
    simp [getCard, mupdate]
  rw [hg]
  refine ⟨rfl, rfl, rfl, fun e1 e2 => ?_⟩
  rw [e1, e2]
  rfl

/-- Two cards with the spec's example stats, owned by account 7, in a state
whose counter is at 3. -/
def fuseDemoS : BCState :=
  { nextId := 3,
    cards := fun i =>
      if i = 1 then ⟨60, 40, 20, 2⟩
      else if i = 2 then ⟨80, 50, 25, 4⟩ else zeroCard,
    owners := fun i =>
      if i = 1 then some 7 else if i = 2 then some 7 else none }

/-- The state after account 7 fuses cards 1 and 2 of `fuseDemoS`. -/
def fuseDemoS' : BCState :=
  { nextId := 4,
    cards := mupdate fuseDemoS.cards 3
      (fuseCard (fuseDemoS.cards 1) (fuseDemoS.cards 2)),
    owners := mupdate (mupdate (mupdate fuseDemoS.owners 1 none) 2 none) 3
      (some 7) }

theorem upgrade_stats_witness : getCard fuseDemoS' 3 = ⟨80, 50, 27, 4⟩ := by
  have h : upgrade 7 1 2 fuseDemoS = .ok (fuseDemoS', 3) := rfl
  exact (upgrade_stats h).2.2.2 rfl rfl

/-- Two rarity-5 cards owned by account 7: fusing them exhibits the missing
rarity cap. -/
def rarityDemoS : BCState :=
  { nextId := 3,
    cards := fun i =>
      if i = 1 then ⟨60, 40, 20, 5⟩
      else if i = 2 then ⟨80, 50, 25, 5⟩ else zeroCard,
    owners := fun i =>
      if i = 1 then some 7 else if i = 2 then some 7 else none }

/-- Claim C4 counterexample: fusing two rarity-5 cards succeeds and stores
rarity `(5 + 5) / 2 + 1 = 6 > 5` — the code applies no cap at the maximum
rarity value. -/
theorem upgrade_rarity_uncapped_cex :
    (runUpgrade 7 1 2 rarityDemoS).2 = some 3 ∧
    (getCard (runUpgrade 7 1 2 rarityDemoS).1 3).rarity = 6 ∧
    ¬ (getCard (runUpgrade 7 1 2 rarityDemoS).1 3).rarity ≤ 5 := by
  decide

/-- Claim C4 amended: a successful fusion stores
`rarity = (r1 + r2) / 2 + 1` (truncating division) with NO silent cap at 5 —
the checked `uint8` addition instead reverts when `r1 + r2 ≥ 256`, and the
stored value may exceed 5. -/
theorem upgrade_rarity_formula {caller : Address} {id1 id2 : Nat}
    {s s' : BCState} {nid : Nat}
    (h : upgrade caller id1 id2 s = .ok (s', nid)) :
    (s.cards id1).rarity + (s.cards id2).rarity < 256 ∧
    (getCard s' nid).rarity =
      ((s.cards id1).rarity + (s.cards id2).rarity) / 2 + 1 := by
  obtain ⟨-, -, -, -, hnid, -, -, -, hr, hs'⟩ := upgrade_ok h
  subst hnid
  subst hs'
  exact ⟨hr, by simp [getCard, mupdate, fuseCard]⟩

theorem upgrade_rarity_formula_witness :
    (getCard (runUpgrade 7 1 2 rarityDemoS).1 3).rarity = (5 + 5) / 2 + 1 := by
  have h : upgrade 7 1 2 rarityDemoS = .ok ((runUpgrade 7 1 2 rarityDemoS).1, 3) :=
    rfl
  exact (upgrade_rarity_formula h).2

/-! ## Retrievability through getCard -/

/-- Claim C5 counterexample: after a successful fusion of cards 1 and 2,
`getCard` still returns both inputs' original stats — a burned fusion input
stays retrievable — and `getCard` on a never-minted id does not fail but
returns the zero struct. -/
theorem getCard_after_fuse_cex :
    (runUpgrade 7 1 2 fuseDemoS).2 = some 3 ∧
    getCard (runUpgrade 7 1 2 fuseDemoS).1 1 = ⟨60, 40, 20, 2⟩ ∧
    getCard (runUpgrade 7 1 2 fuseDemoS).1 2 = ⟨80, 50, 25, 4⟩ ∧
    getCard initialState 99 = zeroCard := by
  decide

/-- Claim C5 amended: `getCard` is total and never fails — it returns the
`cards` mapping entry, which is the zero struct for ids never written; a
successful fusion burns the ERC721 ownership of both inputs but leaves their
`cards` entries intact, so both remain retrievable with their original
stats. -/
theorem getCard_total_and_fuse_keeps_entries {caller : Address}
    {id1 id2 : Nat} {s s' : BCState} {nid : Nat}
    (h : upgrade caller id1 id2 s = .ok (s', nid))
    (hne1 : id1 ≠ s.nextId) (hne2 : id2 ≠ s.nextId) :
    (∀ j, getCard s j = s.cards j) ∧
    (∀ j, getCard initialState j = zeroCard) ∧
    getCard s' id1 = getCard s id1 ∧
    getCard s' id2 = getCard s id2 ∧
    s'.owners id1 = none ∧ s'.owners id2 = none := by
  obtain ⟨-, -, hne, -, -, -, -, -, -, hs'⟩ := upgrade_ok h
  subst hs'
  refine ⟨fun j => rfl, fun j => rfl, ?_, ?_, ?_, ?_⟩
  · simp [getCard, mupdate, hne1]
  · simp [getCard, mupdate, hne2]
  · simp [mupdate, hne1, hne]
  · simp [mupdate, hne2]

theorem getCard_total_and_fuse_keeps_entries_witness :
    getCard fuseDemoS' 1 = getCard fuseDemoS 1 ∧
    getCard fuseDemoS' 2 = getCard fuseDemoS 2 ∧
    fuseDemoS'.owners 1 = none ∧ fuseDemoS'.owners 2 = none := by
  have h : upgrade 7 1 2 fuseDemoS = .ok (fuseDemoS', 3) := rfl
  have hw := getCard_total_and_fuse_keeps_entries h (by decide) (by decide)
  exact ⟨hw.2.2.1, hw.2.2.2.1, hw.2.2.2.2.1, hw.2.2.2.2.2⟩

/-! ## The round comparison -/

/-- Claim C1: with both cards valid, `battle` draws one shared
`rand = derive(time, caller) % 10 ∈ [0,9]`, scores each side as
`power + defense / 2 + speed` (truncating division), adds `rand` to side 1
and exactly `10 - rand` to side 2, and declares the side with the strictly
larger total the winner, equal totals being a draw.  (The overflow
hypotheses discharge Solidity 0.8's checked addition.) -/
theorem battle_round_outcome (keccak : List Nat → Nat)
    (time caller card1 card2 : Nat) (s : BCState) (a b : Address)
    (h1 : s.owners card1 = some a) (ha : a ≠ 0)
    (h2 : s.owners card2 = some b) (hb : b ≠ 0)
    (hov1 : (s.cards card1).power + (s.cards card1).defense / 2 +
      (s.cards card1).speed + 10 < 2 ^ 256)
    (hov2 : (s.cards card2).power + (s.cards card2).defense / 2 +
      (s.cards card2).speed + 10 < 2 ^ 256) :
    derive keccak [time, caller] % 10 ≤ 9 ∧
    battle keccak time caller card1 card2 s =
      .ok
        (if (s.cards card1).power + (s.cards card1).defense / 2 +
              (s.cards card1).speed + derive keccak [time, caller] % 10 >
            (s.cards card2).power + (s.cards card2).defense / 2 +
              (s.cards card2).speed + (10 - derive keccak [time, caller] % 10)
         then "Card 1 Wins!"
         else if (s.cards card2).power + (s.cards card2).defense / 2 +
              (s.cards card2).speed + (10 - derive keccak [time, caller] % 10) >
            (s.cards card1).power + (s.cards card1).defense / 2 +
              (s.cards card1).speed + derive keccak [time, caller] % 10
         then "Card 2 Wins!"
         else "Draw!", s) := by
  have hrand : derive keccak [time, caller] % 10 < 10 :=
    Nat.mod_lt _ (by norm_num)
  refine ⟨by omega, ?_⟩
  unfold battle
  rw [ownerOf_eq_of_some h1, ownerOf_eq_of_some h2]
  dsimp only
  rw [if_neg ha, if_neg hb]
  have hstep1 : (s.cards card1).power + (s.cards card1).defense / 2 +
      (s.cards card1).speed + derive keccak [time, caller] % 10 <
      (s.cards card1).power + (s.cards card1).defense / 2 +
        (s.cards card1).speed + 10 := by
    omega
  have hstep2 : (s.cards card2).power + (s.cards card2).defense / 2 +
      (s.cards card2).speed + (10 - derive keccak [time, caller] % 10) ≤
      (s.cards card2).power + (s.cards card2).defense / 2 +
        (s.cards card2).speed + 10 := by
    omega
  have g1 : ¬ 2 ^ 256 ≤ (s.cards card1).power + (s.cards card1).defense / 2 +
      (s.cards card1).speed + derive keccak [time, caller] % 10 := by
    push_neg
    exact Nat.lt_trans hstep1 hov1
  have g2 : ¬ 2 ^ 256 ≤ (s.cards card2).power + (s.cards card2).defense / 2 +
      (s.cards card2).speed + (10 - derive keccak [time, caller] % 10) := by
    push_neg
    exact Nat.lt_of_le_of_lt hstep2 hov2
  rw [if_neg g1, if_neg g2]
  split_ifs <;> rfl

theorem battle_round_outcome_witness :
    derive (fun _ => 3) [0, 7] % 10 ≤ 9 ∧
    battle (fun _ => 3) 0 7 1 2 fuseDemoS = .ok ("Card 2 Wins!", fuseDemoS) := by
  have hw := battle_round_outcome (fun _ => 3) 0 7 1 2 fuseDemoS 7 7 rfl
    (by decide) rfl (by decide) (by decide) (by decide)
  refine ⟨hw.1, ?_⟩
  rw [hw.2]
  rfl

/-! ## Failure behaviour of upgrade -/

/-- Claim C6: `upgrade` (fusion) reverts unless the caller owns both input
tokens; the reverted transaction leaves the state unchanged and allocates no
new id (no burn, no mint, counter untouched), and whenever both tokens exist
but are not both the caller's, the revert reason is `Not owner`. -/
theorem upgrade_not_owner_reverts {caller : Address} {id1 id2 : Nat}
    {s : BCState}
    (hno : ¬ (s.owners id1 = some caller ∧ s.owners id2 = some caller)) :
    runUpgrade caller id1 id2 s = (s, none) ∧
    ((∃ a, s.owners id1 = some a) → (∃ b, s.owners id2 = some b) →
      upgrade caller id1 id2 s = .error .notOwner) := by
  have herr : ∀ r, upgrade caller id1 id2 s = .ok r → False := by
    rintro ⟨s', nid⟩ hok
    obtain ⟨ho1, ho2, -⟩ := upgrade_ok hok
    exact hno ⟨ho1, ho2⟩
  constructor
  · unfold runUpgrade
    cases hu : upgrade caller id1 id2 s with
    | ok r => exact absurd hu (fun hh => herr r hh)
    | error e => rfl
  · rintro ⟨a, ha⟩ ⟨b, hb⟩
    unfold upgrade
    rw [ownerOf_eq_of_some ha, ownerOf_eq_of_some hb]
    by_cases hac : a = caller
    · by_cases hbc : b = caller
      · exact absurd ⟨hac ▸ ha, hbc ▸ hb⟩ hno
      · simp [hac, hbc]
    · simp [hac]

theorem upgrade_not_owner_reverts_witness :
    runUpgrade 8 1 2 fuseDemoS = (fuseDemoS, none) ∧
    upgrade 8 1 2 fuseDemoS = .error .notOwner := by
  have hno : ¬ (fuseDemoS.owners 1 = some 8 ∧ fuseDemoS.owners 2 = some 8) := by
    decide
  have hw := upgrade_not_owner_reverts hno
  exact ⟨hw.1, hw.2 ⟨7, rfl⟩ ⟨7, rfl⟩⟩

/-! ## Purity of the randomness derivation and of battle -/

/-- Claim C8: the random attribute derivation is a deterministic, total,
pure function of its seed parts (time, actor identity, sequence number):
identical parts give identical outputs, the result is a 256-bit unsigned
integer, and — being a total function — the derivation cannot fail and
performs no effects. -/
theorem derive_deterministic (keccak : List Nat → Nat)
    (time1 time2 sender1 sender2 seq1 seq2 : Nat)
    (ht : time1 = time2) (hs : sender1 = sender2) (hq : seq1 = seq2) :
    derive keccak [time1, sender1, seq1] = derive keccak [time2, sender2, seq2] ∧
    derive keccak [time1, sender1, seq1] < 2 ^ 256 := by
  subst ht
  subst hs
  subst hq
  exact ⟨rfl, Nat.mod_lt _ (pow_pos (by norm_num) 256)⟩

theorem derive_deterministic_witness :
    derive (fun l => l.sum) [1, 2, 3] = derive (fun l => l.sum) [1, 2, 3] ∧
    derive (fun l => l.sum) [1, 2, 3] < 2 ^ 256 :=
  derive_deterministic (fun l => l.sum) 1 1 2 2 3 3 rfl rfl rfl

theorem battle_ok_inv {keccak : List Nat → Nat} {time caller card1 card2 : Nat}
    {s : BCState} {m : String} {s' : BCState}
    (h : battle keccak time caller card1 card2 s = .ok (m, s')) :
    s' = s ∧ (m = "Card 1 Wins!" ∨ m = "Card 2 Wins!" ∨ m = "Draw!") := by
  unfold battle at h
  dsimp only at h
  split at h
  · simp_all
  · split at h
    · simp_all
    · split at h
      · simp_all
      · split at h
        · simp_all
        · split at h
          · simp_all
          · split at h
            · simp_all
            · split at h
              · rw [Except.ok.injEq, Prod.mk.injEq] at h
                exact ⟨h.2.symm, Or.inl h.1.symm⟩
              · split at h
                · rw [Except.ok.injEq, Prod.mk.injEq] at h
                  exact ⟨h.2.symm, Or.inr (Or.inl h.1.symm)⟩
                · rw [Except.ok.injEq, Prod.mk.injEq] at h
                  exact ⟨h.2.symm, Or.inr (Or.inr h.1.symm)⟩

/-- Claim C9: `battle` is a pure query: whether it reverts or succeeds, the
post-transaction state equals the pre-state — the cards table, every
ownership record and the id counter are untouched — and on success it
returns only a result string (one of the three outcome strings). -/
theorem battle_is_pure (keccak : List Nat → Nat)
    (time caller card1 card2 : Nat) (s : BCState) :
    (runBattle keccak time caller card1 card2 s).1 = s ∧
    (∀ m s', battle keccak time caller card1 card2 s = .ok (m, s') →
      s' = s ∧ (m = "Card 1 Wins!" ∨ m = "Card 2 Wins!" ∨ m = "Draw!")) := by
  constructor
  · unfold runBattle
    split
    · next m s' heq => exact (battle_ok_inv heq).1
    · rfl
  · intro m s' heq
    exact battle_ok_inv heq

theorem battle_is_pure_witness :
    (runBattle (fun _ => 3) 0 7 1 2 fuseDemoS).1 = fuseDemoS ∧
    ("Card 2 Wins!" = "Card 1 Wins!" ∨ "Card 2 Wins!" = "Card 2 Wins!" ∨
      "Card 2 Wins!" = "Draw!") := by
  have hw := battle_is_pure (fun _ => 3) 0 7 1 2 fuseDemoS
  exact ⟨hw.1, (hw.2 "Card 2 Wins!" fuseDemoS rfl).2⟩

/-! ## Id allocation across operation sequences -/

/-- A state-changing, id-allocating operation of the contract. -/
inductive Op where
  | mint (time : Nat) (caller : Address)
  | fuse (caller : Address) (id1 id2 : Nat)

/-- Execute one operation, returning the post-state and the allocated id. -/
def execOp (keccak : List Nat → Nat) : Op → BCState → Except Err (BCState × Nat)
  | .mint time caller, s => mintCard keccak time caller s
  | .fuse caller id1 id2, s => upgrade caller id1 id2 s

/-- Run a sequence of operations at transaction level: a reverting operation
rolls the state back and allocates nothing; successful allocations are
collected in order. -/
def runOps (keccak : List Nat → Nat) : List Op → BCState → BCState × List Nat
  | [], s => (s, [])
  | op :: rest, s =>
      match execOp keccak op s with
      | .ok (s', i) =>
          let r := runOps keccak rest s'
          (r.1, i :: r.2)
      | .error _ => runOps keccak rest s

/-- Every ERC721-owned token id sits strictly below the `nextId` counter. -/
def IdsBelowNext (s : BCState) : Prop :=
  ∀ id a, s.owners id = some a → id < s.nextId

theorem execOp_ok_nextId {keccak : List Nat → Nat} {op : Op} {s s' : BCState}
    {i : Nat} (h : execOp keccak op s = .ok (s', i)) :
    i = s.nextId ∧ s'.nextId = s.nextId + 1 := by
  cases op with
  | mint time caller =>
      simp only [execOp] at h
      obtain ⟨hi, -, -, hs'⟩ := mintCard_ok h
      exact ⟨hi, by rw [hs']⟩
  | fuse caller id1 id2 =>
      simp only [execOp] at h
      obtain ⟨-, -, -, -, hi, -, -, -, -, hs'⟩ := upgrade_ok h
      exact ⟨hi, by rw [hs']⟩

theorem execOp_preserves_inv {keccak : List Nat → Nat} {op : Op}
    {s s' : BCState} {i : Nat}
    (hinv : IdsBelowNext s) (h : execOp keccak op s = .ok (s', i)) :
    IdsBelowNext s' := by
  cases op with
  | mint time caller =>
      simp only [execOp] at h
      obtain ⟨-, -, -, hs'⟩ := mintCard_ok h
      subst hs'
      intro id a hid
      dsimp only at hid ⊢
      simp only [mupdate] at hid
      by_cases hc : id = s.nextId
      · omega
      · rw [if_neg hc] at hid
        have := hinv id a hid
        omega
  | fuse caller id1 id2 =>
      simp only [execOp] at h
      obtain ⟨-, -, -, -, -, -, -, -, -, hs'⟩ := upgrade_ok h
      subst hs'
      intro id a hid
      dsimp only at hid ⊢
      simp only [mupdate] at hid
      by_cases h3 : id = s.nextId
      · omega
      · rw [if_neg h3] at hid
        by_cases h2 : id = id2
        · rw [if_pos h2] at hid
          exact absurd hid (by simp)
        · rw [if_neg h2] at hid
          by_cases h1 : id = id1
          · rw [if_pos h1] at hid
            exact absurd hid (by simp)
          · rw [if_neg h1] at hid
            have := hinv id a hid
            omega

theorem upgrade_output_above_inputs {caller : Address} {id1 id2 : Nat}
    {s s' : BCState} {nid : Nat}
    (hinv : IdsBelowNext s) (h : upgrade caller id1 id2 s = .ok (s', nid)) :
    id1 < nid ∧ id2 < nid := by
  obtain ⟨ho1, ho2, -, -, hnid, -⟩ := upgrade_ok h
  subst hnid
  exact ⟨hinv id1 caller ho1, hinv id2 caller ho2⟩

theorem runOps_ids_increasing (keccak : List Nat → Nat) (ops : List Op) :
    ∀ s : BCState, s.nextId ≤ (runOps keccak ops s).1.nextId ∧
      (∀ i ∈ (runOps keccak ops s).2, s.nextId ≤ i) ∧
      List.Pairwise (· < ·) (runOps keccak ops s).2 := by
  induction ops with
  | nil =>
      intro s
      refine ⟨le_refl _, ?_, ?_⟩ <;> simp [runOps]
  | cons op rest ih =>
      intro s
      rcases hop : execOp keccak op s with e | ⟨s', i⟩
      · simp only [runOps, hop]
        exact ih s
      · simp only [runOps, hop]
        obtain ⟨hi, hnext⟩ := execOp_ok_nextId hop
        obtain ⟨ihn, ihlb, ihpw⟩ := ih s'
        subst hi
        refine ⟨by omega, ?_, ?_⟩
        · intro j hj
          rcases List.mem_cons.mp hj with rfl | hj2
          · exact le_refl _
          · have := ihlb j hj2
            omega
        · refine List.Pairwise.cons (fun j hj => ?_) ihpw
          have := ihlb j hj
          omega

/-- Claim C7: card ids come from the single `nextId` counter and are never
reused: every successful mint or fusion allocates the current `nextId` and
advances the counter by one; across any sequence of mint and fuse
transactions the allocated ids are strictly increasing (hence pairwise
distinct); minted ids always sit below the counter, each operation preserves
that invariant, and a fusion's output id is strictly greater than both of
its input ids. -/
theorem id_allocation (keccak : List Nat → Nat) :
    (∀ op s s' i, execOp keccak op s = .ok (s', i) →
        i = s.nextId ∧ s'.nextId = s.nextId + 1) ∧
    (∀ ops s, List.Pairwise (· < ·) (runOps keccak ops s).2) ∧
    IdsBelowNext initialState ∧
    (∀ op s s' i, IdsBelowNext s → execOp keccak op s = .ok (s', i) →
        IdsBelowNext s') ∧
    (∀ caller id1 id2 s s' nid, IdsBelowNext s →
        upgrade caller id1 id2 s = .ok (s', nid) → id1 < nid ∧ id2 < nid) :=
  ⟨fun _ _ _ _ h => execOp_ok_nextId h,
   fun ops s => (runOps_ids_increasing keccak ops s).2.2,
   fun _ _ h => by simp [initialState] at h,
   fun _ _ _ _ hinv h => execOp_preserves_inv hinv h,
   fun _ _ _ _ _ _ hinv h => upgrade_output_above_inputs hinv h⟩

theorem id_allocation_witness :
    List.Pairwise (· < ·)
      (runOps (fun _ => 12345) [Op.mint 0 7, Op.mint 1 7, Op.fuse 7 1 2]
        initialState).2 ∧
    (1 < 3 ∧ 2 < 3) := by
  have hw := id_allocation (fun _ => 12345)
  have hinv : IdsBelowNext fuseDemoS := by
    intro id a h
    dsimp [fuseDemoS] at h ⊢
    by_cases h1 : id = 1
    · omega
    · by_cases h2 : id = 2
      · omega
      · rw [if_neg h1, if_neg h2] at h
        exact absurd h (by simp)
  have hup : upgrade 7 1 2 fuseDemoS = .ok (fuseDemoS', 3) := rfl
  exact ⟨hw.2.1 [Op.mint 0 7, Op.mint 1 7, Op.fuse 7 1 2] initialState,
    hw.2.2.2.2 7 1 2 fuseDemoS fuseDemoS' 3 hinv hup⟩

end BattleCard
